import Mathlib

/-!
Verification of the Fp12 (2-over-3-over-2) tower-field layer from
`snarkVM/fields/src/fp12_2over3over2.rs`.

An element of Fp12 is `c0 + c1 * w` with `c0, c1 : Fp6` and `w ^ 2 = γ`,
where `γ` is the image of the Fp6 indeterminate `v` (`mul_fp6_by_nonresidue`).
The Fp2 and Fp6 layers are external to the file under verification; the spec
treats them as black boxes.  We embed them as the standard tower over an
abstract commutative ring `K` (playing the role of Fp2) with nonresidue
`ξ : K` (the Fp6 construction `Fp6 = Fp2[v] / (v ^ 3 - ξ)`).

The accelerated `blst_fp12_377_*` kernels declared `extern "C"` in the source
have no code in the repository; following the spec's central obligation —
"each MUST be observationally equivalent to its generic counterpart for every
input" — each kernel is modelled by the generic formula the spec gives for it.
-/

section TowerDefs

variable {K : Type}

/-- An element of Fp6 over `K` (the source's `Fp6<P>` with `K` playing Fp2):
coefficients of `1, v, v ^ 2`. -/
@[ext]
structure Fp6 (K : Type) where
  c0 : K
  c1 : K
  c2 : K
deriving DecidableEq

/-- An element of Fp12, represented by `c0 + c1 * w` (the source's `Fp12<P>`). -/
@[ext]
structure Fp12 (K : Type) where
  c0 : Fp6 K
  c1 : Fp6 K
deriving DecidableEq

variable [CommRing K]

/-- Modelled from the spec: the external Fp6 layer's componentwise addition. -/
def Fp6.add (x y : Fp6 K) : Fp6 K :=
  ⟨x.c0 + y.c0, x.c1 + y.c1, x.c2 + y.c2⟩

/-- Modelled from the spec: the external Fp6 layer's componentwise subtraction. -/
def Fp6.sub (x y : Fp6 K) : Fp6 K :=
  ⟨x.c0 - y.c0, x.c1 - y.c1, x.c2 - y.c2⟩

/-- Modelled from the spec: the external Fp6 layer's zero `(0, 0, 0)`. -/
def Fp6.zero : Fp6 K := ⟨0, 0, 0⟩

/-- Modelled from the spec: the external Fp6 layer's one `(1, 0, 0)`. -/
def Fp6.one : Fp6 K := ⟨1, 0, 0⟩

/-- Modelled from the spec: the external Fp6 layer's full multiplication, i.e.
multiplication in `Fp2[v] / (v ^ 3 - ξ)`. -/
def Fp6.mul (ξ : K) (x y : Fp6 K) : Fp6 K :=
  ⟨x.c0 * y.c0 + ξ * (x.c1 * y.c2 + x.c2 * y.c1),
   x.c0 * y.c1 + x.c1 * y.c0 + ξ * (x.c2 * y.c2),
   x.c0 * y.c2 + x.c1 * y.c1 + x.c2 * y.c0⟩

/-- Modelled from the spec: the external Fp6 sparse multiplication `mul_by_01`,
required to be bit-identical to multiplying by the dense element `(a, b, 0)`. -/
def Fp6.mul_by_01 (ξ : K) (x : Fp6 K) (a b : K) : Fp6 K :=
  Fp6.mul ξ x ⟨a, b, 0⟩

/-- Modelled from the spec: the external Fp6 sparse multiplication `mul_by_1`,
required to be bit-identical to multiplying by the dense element `(0, b, 0)`. -/
def Fp6.mul_by_1 (ξ : K) (x : Fp6 K) (b : K) : Fp6 K :=
  Fp6.mul ξ x ⟨0, b, 0⟩

/-- Source `Fp12::mul_fp6_by_nonresidue`: multiply an Fp6 element by the
quadratic nonresidue `v`, with `mul_fp2_by_nonresidue` (external) modelled as
multiplication by `ξ` in Fp2. -/
def Fp12.mul_fp6_by_nonresidue (ξ : K) (fe : Fp6 K) : Fp6 K :=
  ⟨ξ * fe.c2, fe.c0, fe.c1⟩

/-- Source `Zero::zero` for Fp12: `(Fp6::zero, Fp6::zero)`. -/
def Fp12.zero : Fp12 K := ⟨Fp6.zero, Fp6.zero⟩

/-- Source `One::one` for Fp12: `(Fp6::one, Fp6::zero)`. -/
def Fp12.one : Fp12 K := ⟨Fp6.one, Fp6.zero⟩

/-- Source `Add::add` for Fp12: componentwise. -/
def Fp12.add (a b : Fp12 K) : Fp12 K :=
  ⟨Fp6.add a.c0 b.c0, Fp6.add a.c1 b.c1⟩

/-- Modelled from the spec: the accelerated kernel `blst_fp12_377_mul`
(declared `extern "C"`, no code in the repository).  Per the spec it must be
bit-identical to the standard quadratic-extension combination
`c0' = a0 * b0 + γ * (a1 * b1)`,
`c1' = (a0 + a1) * (b0 + b1) - a0 * b0 - a1 * b1`,
with every sub-multiplication at the Fp6 level. -/
def blst_fp12_377_mul (ξ : K) (a b : Fp12 K) : Fp12 K :=
  let v0 := Fp6.mul ξ a.c0 b.c0
  let v1 := Fp6.mul ξ a.c1 b.c1
  ⟨Fp6.add v0 (Fp12.mul_fp6_by_nonresidue ξ v1),
   Fp6.sub (Fp6.sub (Fp6.mul ξ (Fp6.add a.c0 a.c1) (Fp6.add b.c0 b.c1)) v0) v1⟩

/-- Source `Mul::mul` for Fp12: dispatches to the accelerated kernel. -/
def Fp12.mul (ξ : K) (a b : Fp12 K) : Fp12 K :=
  blst_fp12_377_mul ξ a b

/-- Source `MulAssign::mul_assign` for Fp12: `self = kernel(self, other)`;
modelled with explicit state passing (the returned value is the new `self`). -/
def Fp12.mul_assign (ξ : K) (s other : Fp12 K) : Fp12 K :=
  blst_fp12_377_mul ξ s other

/-- The spec's generic reference multiplication, written from the spec's own
words: `c0' = a0 * b0 + γ * a1 * b1`,
`c1' = (a0 + a1) * (b0 + b1) - a0 * b0 - a1 * b1`, each sub-multiplication
performed at the Fp6 level (`γ *` is `mul_fp6_by_nonresidue`). -/
def Fp12.genericMul (ξ : K) (a b : Fp12 K) : Fp12 K :=
  ⟨Fp6.add (Fp6.mul ξ a.c0 b.c0)
     (Fp12.mul_fp6_by_nonresidue ξ (Fp6.mul ξ a.c1 b.c1)),
   Fp6.sub
     (Fp6.sub (Fp6.mul ξ (Fp6.add a.c0 a.c1) (Fp6.add b.c0 b.c1))
       (Fp6.mul ξ a.c0 b.c0))
     (Fp6.mul ξ a.c1 b.c1)⟩

end TowerDefs

/-- C1: `Mul::mul` and `MulAssign::mul_assign` (both dispatching to the
accelerated kernel, modelled by its spec contract) return exactly the standard
quadratic-extension combination `c0' = a0 * b0 + γ * (a1 * b1)`,
`c1' = (a0 + a1) * (b0 + b1) - a0 * b0 - a1 * b1` computed at the Fp6 level;
the backend is bit-identical to the generic formula for every input. -/
theorem Fp12.mul_eq_genericMul {K : Type} [CommRing K] (ξ : K)
    (a b : Fp12 K) :
    Fp12.mul ξ a b = Fp12.genericMul ξ a b ∧
      Fp12.mul_assign ξ a b = Fp12.genericMul ξ a b := by
  constructor <;> rfl

section SparseMul

variable {K : Type} [CommRing K]

/-- Source `Fp12::mul_by_034`: sparse multiplication by an element whose
nonzero Fp2 coefficients sit at positions 0, 3, 4 of the 6-coefficient layout
(`c0.c0`, `c1.c0`, `c1.c1`).  Translated line by line; the method mutates
`self`, modelled by returning the new value. -/
def Fp12.mul_by_034 (ξ : K) (s : Fp12 K) (c0 c3 c4 : K) : Fp12 K :=
  let a0 := s.c0.c0 * c0
  let a1 := s.c0.c1 * c0
  let a2 := s.c0.c2 * c0
  let a : Fp6 K := ⟨a0, a1, a2⟩
  let b := Fp6.mul_by_01 ξ s.c1 c3 c4
  let c0' := c0 + c3
  let e := Fp6.mul_by_01 ξ (Fp6.add s.c0 s.c1) c0' c4
  ⟨Fp6.add a (Fp12.mul_fp6_by_nonresidue ξ b), Fp6.sub e (Fp6.add a b)⟩

/-- Source `Fp12::mul_by_014`: sparse multiplication by an element whose
nonzero Fp2 coefficients sit at positions 0, 1, 4 of the 6-coefficient layout
(`c0.c0`, `c0.c1`, `c1.c1`).  Translated line by line; the method mutates
`self`, modelled by returning the new value. -/
def Fp12.mul_by_014 (ξ : K) (s : Fp12 K) (c0 c1 c4 : K) : Fp12 K :=
  let aa := Fp6.mul_by_01 ξ s.c0 c0 c1
  let bb := Fp6.mul_by_1 ξ s.c1 c4
  let o := c1 + c4
  let t1 := Fp6.sub (Fp6.sub (Fp6.mul_by_01 ξ (Fp6.add s.c1 s.c0) c0 o) aa) bb
  let t0 := Fp6.add (Fp12.mul_fp6_by_nonresidue ξ bb) aa
  ⟨t0, t1⟩

/-- The dense Fp12 element matching `mul_by_034`'s coefficient pattern:
positions 0, 3, 4 carry `c0, c3, c4`, the rest are zero. -/
def Fp12.dense034 (c0 c3 c4 : K) : Fp12 K :=
  ⟨⟨c0, 0, 0⟩, ⟨c3, c4, 0⟩⟩

/-- The dense Fp12 element matching `mul_by_014`'s coefficient pattern:
positions 0, 1, 4 carry `c0, c1, c4`, the rest are zero. -/
def Fp12.dense014 (c0 c1 c4 : K) : Fp12 K :=
  ⟨⟨c0, c1, 0⟩, ⟨0, c4, 0⟩⟩

end SparseMul

/-- C3: for every Fp12 element `a` and every triple of sparse Fp2
coefficients, `mul_by_034` equals general multiplication by the dense element
with that coefficient pattern (remaining sub-coefficients zero), and likewise
`mul_by_014`. -/
theorem Fp12.sparse_mul_matches_dense {K : Type} [CommRing K] (ξ : K)
    (a : Fp12 K) (x y z : K) :
    Fp12.mul_by_034 ξ a x y z = Fp12.mul ξ a (Fp12.dense034 x y z) ∧
      Fp12.mul_by_014 ξ a x y z = Fp12.mul ξ a (Fp12.dense014 x y z) := by
  constructor <;>
    · ext <;>
        simp [Fp12.mul_by_034, Fp12.mul_by_014, Fp12.dense034, Fp12.dense014,
          Fp12.mul, blst_fp12_377_mul, Fp6.mul, Fp6.mul_by_01, Fp6.mul_by_1,
          Fp6.add, Fp6.sub, Fp12.mul_fp6_by_nonresidue] <;>
      ring

section Cyclotomic

variable {K : Type} [CommRing K]

/-- Modelled from the spec: the accelerated kernel `blst_fp12_377_sqr`
(no code in the repository); per the spec `square()` must equal `mul(a, a)`. -/
def blst_fp12_377_sqr (ξ : K) (a : Fp12 K) : Fp12 K :=
  Fp12.mul ξ a a

/-- Source `Field::square` for Fp12: dispatches to the kernel. -/
def Fp12.square (ξ : K) (a : Fp12 K) : Fp12 K :=
  blst_fp12_377_sqr ξ a

/-- Modelled from the spec: the accelerated kernel
`blst_fp12_377_cyclotomic_sqr` (no code in the repository); specialized
squaring whose contract on its documented domain is to equal `square()`. -/
def blst_fp12_377_cyclotomic_sqr (ξ : K) (a : Fp12 K) : Fp12 K :=
  Fp12.square ξ a

/-- Source `Fp12::cyclotomic_square`: dispatches to the kernel. -/
def Fp12.cyclotomic_square (ξ : K) (a : Fp12 K) : Fp12 K :=
  blst_fp12_377_cyclotomic_sqr ξ a

/-- The `w` low bits of `n`, least significant first. -/
def lsbBits : Nat → Nat → List Bool
  | 0, _ => []
  | w + 1, n => (n % 2 == 1) :: lsbBits w (n / 2)

/-- The 64 bits of one `u64` limb, most significant first — the order in which
`BitIteratorBE` emits the bits of a single limb. -/
def bitsOfLimb (n : Nat) : List Bool :=
  (lsbBits 64 n).reverse

/-- Source `BitIteratorBE::new(exp)` over a little-endian `u64` limb slice:
bits are emitted most-significant-first, i.e. the last limb's bit 63 first
down to the first limb's bit 0. -/
def bitIteratorBE : List Nat → List Bool
  | [] => []
  | l :: rest => bitIteratorBE rest ++ bitsOfLimb l

/-- Source `Fp12::cyclotomic_exp`'s `for` loop: `found` is the `found_one`
flag, `res` the accumulator; a leading zero bit is skipped, otherwise the
accumulator is squared with `cyclotomic_square` and multiplied by `a` at every
set bit. -/
def Fp12.cycExpLoop (ξ : K) (a : Fp12 K) : List Bool → Bool → Fp12 K → Fp12 K
  | [], _, res => res
  | i :: rest, found, res =>
    if !found && !i then
      Fp12.cycExpLoop ξ a rest found res
    else
      let r1 := Fp12.cyclotomic_square ξ res
      let r2 := if i then Fp12.mul ξ r1 a else r1
      Fp12.cycExpLoop ξ a rest true r2

/-- Source `Fp12::cyclotomic_exp`: scan the exponent's bits
most-significant-first starting from `one()`, with `found_one` initially
unset. -/
def Fp12.cyclotomic_exp (ξ : K) (a : Fp12 K) (limbs : List Nat) : Fp12 K :=
  Fp12.cycExpLoop ξ a (bitIteratorBE limbs) false Fp12.one

/-- "`a` multiplied by itself `e` times", with `a ^ 0 = one()` (the claim's
reference semantics for exponentiation). -/
def Fp12.repeatedMul (ξ : K) (a : Fp12 K) : Nat → Fp12 K
  | 0 => Fp12.one
  | n + 1 => Fp12.mul ξ (Fp12.repeatedMul ξ a n) a

/-- Value of a most-significant-first bit string. -/
def bitsValBE : List Bool → Nat
  | [] => 0
  | b :: t => (if b then 1 else 0) * 2 ^ t.length + bitsValBE t

/-- Value of a little-endian `u64` limb slice (each limb reduced to its
64-bit machine value). -/
def limbsVal : List Nat → Nat
  | [] => 0
  | l :: rest => l % 2 ^ 64 + 2 ^ 64 * limbsVal rest

theorem Fp12.mulOne (ξ : K) (a : Fp12 K) : Fp12.mul ξ a Fp12.one = a := by
  ext <;>
    · simp only [Fp12.mul, blst_fp12_377_mul, Fp6.mul, Fp6.add, Fp6.sub,
        Fp12.mul_fp6_by_nonresidue, Fp12.one, Fp6.one, Fp6.zero]
      ring

theorem Fp12.oneMul (ξ : K) (a : Fp12 K) : Fp12.mul ξ Fp12.one a = a := by
  ext <;>
    · simp only [Fp12.mul, blst_fp12_377_mul, Fp6.mul, Fp6.add, Fp6.sub,
        Fp12.mul_fp6_by_nonresidue, Fp12.one, Fp6.one, Fp6.zero]
      ring

set_option maxHeartbeats 1600000 in
theorem Fp12.mulAssoc (ξ : K) (a b c : Fp12 K) :
    Fp12.mul ξ (Fp12.mul ξ a b) c = Fp12.mul ξ a (Fp12.mul ξ b c) := by
  ext <;>
    · simp only [Fp12.mul, blst_fp12_377_mul, Fp6.mul, Fp6.add, Fp6.sub,
        Fp12.mul_fp6_by_nonresidue]
      ring

theorem Fp12.repeatedMul_add (ξ : K) (a : Fp12 K) (m n : Nat) :
    Fp12.mul ξ (Fp12.repeatedMul ξ a m) (Fp12.repeatedMul ξ a n) =
      Fp12.repeatedMul ξ a (m + n) := by
  induction n with
  | zero => simpa [Fp12.repeatedMul] using Fp12.mulOne ξ (Fp12.repeatedMul ξ a m)
  | succ n ih =>
    show Fp12.mul ξ _ (Fp12.mul ξ _ a) = Fp12.mul ξ _ a
    rw [← Fp12.mulAssoc, ih]
    rfl

theorem bitsValBE_append : ∀ xs ys : List Bool,
    bitsValBE (xs ++ ys) = bitsValBE xs * 2 ^ ys.length + bitsValBE ys
  | [], ys => by simp [bitsValBE]
  | b :: t, ys => by
    show bitsValBE (b :: (t ++ ys)) = _
    rw [bitsValBE, bitsValBE_append t ys, bitsValBE, List.length_append, pow_add]
    ring

theorem lsbBits_length (w n : Nat) : (lsbBits w n).length = w := by
  induction w generalizing n with
  | zero => rfl
  | succ w ih => simp [lsbBits, ih]

theorem two_mul_div_two_mod (w n : Nat) :
    2 * (n / 2 % 2 ^ w) + n % 2 = n % 2 ^ (w + 1) := by
  have hn : n = 2 * (n / 2 % 2 ^ w) + n % 2 + 2 ^ (w + 1) * (n / 2 / 2 ^ w) := by
    conv_lhs => rw [← Nat.div_add_mod n 2]
    conv_lhs => rw [← Nat.div_add_mod (n / 2) (2 ^ w)]
    rw [pow_succ]
    ring
  have h2 : n % 2 < 2 := Nat.mod_lt _ (by norm_num)
  have hw : n / 2 % 2 ^ w < 2 ^ w := Nat.mod_lt _ (Nat.pos_pow_of_pos w (by norm_num))
  have hlt : 2 * (n / 2 % 2 ^ w) + n % 2 < 2 ^ (w + 1) := by
    rw [pow_succ]
    omega
  symm
  calc n % 2 ^ (w + 1)
      = (2 * (n / 2 % 2 ^ w) + n % 2 + 2 ^ (w + 1) * (n / 2 / 2 ^ w)) % 2 ^ (w + 1) := by
        rw [← hn]
    _ = (2 * (n / 2 % 2 ^ w) + n % 2) % 2 ^ (w + 1) := Nat.add_mul_mod_self_left _ _ _
    _ = 2 * (n / 2 % 2 ^ w) + n % 2 := Nat.mod_eq_of_lt hlt

theorem bitsValBE_lsbBits_reverse (w : Nat) :
    ∀ n : Nat, bitsValBE (lsbBits w n).reverse = n % 2 ^ w := by
  induction w with
  | zero => intro n; simp [lsbBits, bitsValBE, Nat.mod_one]
  | succ w ih =>
    intro n
    have hrev : (lsbBits (w + 1) n).reverse =
        (lsbBits w (n / 2)).reverse ++ [n % 2 == 1] := by
      simp [lsbBits]
    rw [hrev, bitsValBE_append, ih]
    have hb : bitsValBE [n % 2 == 1] = n % 2 := by
      have h01 : n % 2 = 0 ∨ n % 2 = 1 := Nat.mod_two_eq_zero_or_one n
      rcases h01 with h | h <;> simp [bitsValBE, h]
    rw [hb, List.length_singleton, pow_one, mul_comm]
    exact two_mul_div_two_mod w n

theorem bitsValBE_bitsOfLimb (n : Nat) : bitsValBE (bitsOfLimb n) = n % 2 ^ 64 :=
  bitsValBE_lsbBits_reverse 64 n

theorem bitsOfLimb_length (n : Nat) : (bitsOfLimb n).length = 64 := by
  simp [bitsOfLimb, lsbBits_length]

theorem bitsValBE_bitIteratorBE (limbs : List Nat) :
    bitsValBE (bitIteratorBE limbs) = limbsVal limbs := by
  induction limbs with
  | nil => rfl
  | cons l rest ih =>
    simp only [bitIteratorBE, limbsVal, bitsValBE_append, ih, bitsOfLimb_length,
      bitsValBE_bitsOfLimb]
    ring

theorem Fp12.cycExpLoop_true {K : Type} [CommRing K] (ξ : K) (a : Fp12 K) :
    ∀ (bits : List Bool) (m : Nat),
      Fp12.cycExpLoop ξ a bits true (Fp12.repeatedMul ξ a m) =
        Fp12.repeatedMul ξ a (m * 2 ^ bits.length + bitsValBE bits)
  | [], m => by simp [Fp12.cycExpLoop, bitsValBE]
  | b :: t, m => by
    have hsq : Fp12.cyclotomic_square ξ (Fp12.repeatedMul ξ a m) =
        Fp12.repeatedMul ξ a (m + m) := Fp12.repeatedMul_add ξ a m m
    cases b with
    | false =>
      show Fp12.cycExpLoop ξ a t true
          (Fp12.cyclotomic_square ξ (Fp12.repeatedMul ξ a m)) = _
      rw [hsq, Fp12.cycExpLoop_true ξ a t (m + m)]
      congr 1
      simp only [bitsValBE, List.length_cons, if_neg Bool.false_ne_true,
        zero_mul, zero_add, pow_succ]
      ring
    | true =>
      show Fp12.cycExpLoop ξ a t true
          (Fp12.mul ξ (Fp12.cyclotomic_square ξ (Fp12.repeatedMul ξ a m)) a) = _
      rw [hsq]
      have hstep : Fp12.mul ξ (Fp12.repeatedMul ξ a (m + m)) a =
          Fp12.repeatedMul ξ a (m + m + 1) := rfl
      rw [hstep, Fp12.cycExpLoop_true ξ a t (m + m + 1)]
      have hbv : bitsValBE (true :: t) = 1 * 2 ^ t.length + bitsValBE t := rfl
      have hlen : (true :: t).length = t.length + 1 := rfl
      rw [hbv, hlen, pow_succ]
      congr 1
      ring

theorem Fp12.cycExpLoop_false_one {K : Type} [CommRing K] (ξ : K) (a : Fp12 K) :
    ∀ bits : List Bool,
      Fp12.cycExpLoop ξ a bits false Fp12.one =
        Fp12.cycExpLoop ξ a bits true Fp12.one
  | [] => rfl
  | b :: t => by
    cases b with
    | false =>
      show Fp12.cycExpLoop ξ a t false Fp12.one =
          Fp12.cycExpLoop ξ a t true (Fp12.cyclotomic_square ξ Fp12.one)
      have hone : Fp12.cyclotomic_square ξ (Fp12.one : Fp12 K) = Fp12.one :=
        Fp12.mulOne ξ Fp12.one
      rw [hone, Fp12.cycExpLoop_false_one ξ a t]
    | true => rfl

end Cyclotomic

/-- C4: for every element `a` (in particular every in-subgroup element) and
every exponent given as a slice of `u64` limbs, `cyclotomic_exp(a, e)` equals
`a` multiplied by itself `e` times (with `a ^ 0 = one()`), and it computes
this by scanning the exponent's bits most-significant-first, skipping leading
zero bits, applying `cyclotomic_square` at every squaring step and ordinary
multiplication at every set bit (the second conjunct: the definition is
exactly the source's `found_one` scan of `BitIteratorBE`). -/
theorem Fp12.cyclotomic_exp_eq_repeatedMul {K : Type} [CommRing K] (ξ : K)
    (a : Fp12 K) (limbs : List Nat) :
    Fp12.cyclotomic_exp ξ a limbs = Fp12.repeatedMul ξ a (limbsVal limbs) ∧
      Fp12.cyclotomic_exp ξ a limbs =
        Fp12.cycExpLoop ξ a (bitIteratorBE limbs) false Fp12.one := by
  refine ⟨?_, rfl⟩
  rw [Fp12.cyclotomic_exp, Fp12.cycExpLoop_false_one ξ a]
  have h0 : (Fp12.one : Fp12 K) = Fp12.repeatedMul ξ a 0 := rfl
  rw [h0, Fp12.cycExpLoop_true ξ a]
  simp [bitsValBE_bitIteratorBE]

section Frobenius

variable {K : Type} [CommRing K]

/-- The generic Frobenius path of source `Field::frobenius_map`: apply the
external Fp6-level Frobenius (abstract `f6`) to both components, then multiply
each of `c1`'s three Fp2 sub-coefficients by
`FROBENIUS_COEFF_FP12_C1[power % 12]` (the table `cs`, supplied by the
external `Fp12Parameters`).  The table access is modelled by `List.get?`;
`none` models an out-of-bounds access (a panic), which the fixed 12-entry
table rules out. -/
def Fp12.frobeniusGeneric (f6 : Nat → Fp6 K → Fp6 K) (cs : List K)
    (power : Nat) (a : Fp12 K) : Option (Fp12 K) :=
  match cs[power % 12]? with
  | none => none
  | some c =>
    let c0' := f6 power a.c0
    let c1' := f6 power a.c1
    some ⟨c0', ⟨c1'.c0 * c, c1'.c1 * c, c1'.c2 * c⟩⟩

/-- Modelled from the spec: the accelerated kernel
`blst_fp12_377_frobenius_map` used for `1 <= power <= 3` (no code in the
repository); per the spec it must be observationally equivalent to the
generic path. -/
def blst_fp12_377_frobenius_map (f6 : Nat → Fp6 K → Fp6 K) (cs : List K)
    (power : Nat) (a : Fp12 K) : Option (Fp12 K) :=
  Fp12.frobeniusGeneric f6 cs power a

/-- Source `Field::frobenius_map`: powers in `1..=3` dispatch to the
accelerated kernel and return early; every other power takes the generic
path.  In-place mutation is modelled by returning the new value. -/
def Fp12.frobenius_map (f6 : Nat → Fp6 K → Fp6 K) (cs : List K)
    (power : Nat) (a : Fp12 K) : Option (Fp12 K) :=
  if 0 < power ∧ power ≤ 3 then
    blst_fp12_377_frobenius_map f6 cs power a
  else
    Fp12.frobeniusGeneric f6 cs power a

end Frobenius

/-- C6: `frobenius_map(0)` is the identity: with the external Fp6 Frobenius
being the identity at power 0 and the table's entry 0 being one (both
properties of the external collaborators), applying `frobenius_map` with
power 0 — via the generic path: Fp6-level Frobenius of both components, then
multiplying `c1`'s three sub-coefficients by `FROBENIUS_COEFF_FP12_C1[0]` —
leaves every element unchanged. -/
theorem Fp12.frobenius_map_zero_id {K : Type} [CommRing K]
    (f6 : Nat → Fp6 K → Fp6 K) (cs : List K)
    (h0 : cs[0]? = some 1) (hf : ∀ y : Fp6 K, f6 0 y = y) (a : Fp12 K) :
    Fp12.frobenius_map f6 cs 0 a = some a := by
  simp [Fp12.frobenius_map, Fp12.frobeniusGeneric, h0, hf]

/-- C10: `frobenius_map` is total over every power: since the generic path
indexes the Frobenius coefficient table with `power % 12`, the access into
the fixed 12-entry `FROBENIUS_COEFF_FP12_C1` table is always in bounds, and
the operation never panics (returns `some`) for any power argument. -/
theorem Fp12.frobenius_map_total {K : Type} [CommRing K]
    (f6 : Nat → Fp6 K → Fp6 K) (cs : List K) (h : cs.length = 12)
    (power : Nat) (a : Fp12 K) :
    (Fp12.frobenius_map f6 cs power a).isSome = true := by
  have hlt : power % 12 < cs.length := by
    rw [h]
    exact Nat.mod_lt _ (by norm_num)
  obtain ⟨c, hc⟩ : ∃ c, cs[power % 12]? = some c :=
    ⟨_, List.getElem?_eq_getElem hlt⟩
  unfold Fp12.frobenius_map blst_fp12_377_frobenius_map
  split <;> simp [Fp12.frobeniusGeneric, hc]

/-- Witness for C6 at a concrete instantiation: `K = ZMod 5`, identity Fp6
Frobenius, all-ones 12-entry table, a concrete element. -/
theorem Fp12.frobenius_map_zero_id_witness :
    Fp12.frobenius_map (fun _ y => y)
        ([1, 1, 1, 1, 1, 1, 1, 1, 1, 1, 1, 1] : List (ZMod 5)) 0
        ⟨⟨1, 2, 3⟩, ⟨4, 0, 2⟩⟩ =
      some ⟨⟨1, 2, 3⟩, ⟨4, 0, 2⟩⟩ :=
  Fp12.frobenius_map_zero_id (fun _ y => y)
    ([1, 1, 1, 1, 1, 1, 1, 1, 1, 1, 1, 1] : List (ZMod 5)) rfl (fun _ => rfl) _

/-- Witness for C10 at a concrete instantiation: power 100 with the 12-entry
table stays in bounds. -/
theorem Fp12.frobenius_map_total_witness :
    (Fp12.frobenius_map (fun _ y => y)
        ([1, 1, 1, 1, 1, 1, 1, 1, 1, 1, 1, 1] : List (ZMod 5)) 100
        ⟨⟨1, 2, 3⟩, ⟨4, 0, 2⟩⟩).isSome = true :=
  Fp12.frobenius_map_total (fun _ y => y)
    ([1, 1, 1, 1, 1, 1, 1, 1, 1, 1, 1, 1] : List (ZMod 5)) rfl 100 _

section OrderingClaims

variable {K : Type} [LinearOrder K]

/-- Modelled from the spec: the external Fp6 layer's "own total order" — a
fixed lexicographic convention over the subfield's three-way comparison
(`compare` of the linear order on `K`, the Fp2 stand-in). -/
def Fp6.cmp (x y : Fp6 K) : Ordering :=
  match compare x.c2 y.c2 with
  | Ordering.eq =>
    match compare x.c1 y.c1 with
    | Ordering.eq => compare x.c0 y.c0
    | o => o
  | o => o

/-- Source `Ord::cmp` for Fp12: `c1` is the primary key, `c0` the
tie-break, each by the subfield's own total order. -/
def Fp12.cmp (a b : Fp12 K) : Ordering :=
  let c1Cmp := Fp6.cmp a.c1 b.c1
  if c1Cmp = Ordering.eq then Fp6.cmp a.c0 b.c0 else c1Cmp

/-- Source `PartialOrd::partial_cmp` for Fp12: always `Some(self.cmp(other))`. -/
def Fp12.partialCmp (a b : Fp12 K) : Option Ordering :=
  some (Fp12.cmp a b)

theorem Fp6.cmp_self (x : Fp6 K) : Fp6.cmp x x = Ordering.eq := by
  have h : ∀ z : K, compare z z = Ordering.eq := fun z => compare_eq_iff_eq.mpr rfl
  simp [Fp6.cmp, h]

theorem Fp6.cmp_eq_imp {x y : Fp6 K} (h : Fp6.cmp x y = Ordering.eq) : x = y := by
  unfold Fp6.cmp at h
  cases h2 : compare x.c2 y.c2 <;> simp only [h2] at h
  · exact absurd h (by decide)
  · cases h1 : compare x.c1 y.c1 <;> simp only [h1] at h
    · exact absurd h (by decide)
    · have e0 : x.c0 = y.c0 := compare_eq_iff_eq.mp h
      have e1 : x.c1 = y.c1 := compare_eq_iff_eq.mp h1
      have e2 : x.c2 = y.c2 := compare_eq_iff_eq.mp h2
      ext <;> assumption
    · exact absurd h (by decide)
  · exact absurd h (by decide)

theorem Fp6.cmp_eq_iff_six (x y : Fp6 K) : Fp6.cmp x y = Ordering.eq ↔ x = y :=
  ⟨Fp6.cmp_eq_imp, fun h => h ▸ Fp6.cmp_self x⟩

theorem compare_lt_iff_swap_gt (x y : K) :
    compare x y = Ordering.lt ↔ compare y x = Ordering.gt := by
  rw [compare_lt_iff_lt, compare_gt_iff_gt]

theorem compare_eq_swap (x y : K) :
    compare x y = Ordering.eq ↔ compare y x = Ordering.eq := by
  rw [compare_eq_iff_eq, compare_eq_iff_eq]
  exact eq_comm

theorem Fp6.cmp_lt_iff_swap_gt_six (x y : Fp6 K) :
    Fp6.cmp x y = Ordering.lt ↔ Fp6.cmp y x = Ordering.gt := by
  unfold Fp6.cmp
  cases h2 : compare x.c2 y.c2
  · have h2' : compare y.c2 x.c2 = Ordering.gt := (compare_lt_iff_swap_gt _ _).mp h2
    simp [h2, h2']
  · have h2' : compare y.c2 x.c2 = Ordering.eq := (compare_eq_swap _ _).mp h2
    simp only [h2, h2']
    cases h1 : compare x.c1 y.c1
    · have h1' : compare y.c1 x.c1 = Ordering.gt := (compare_lt_iff_swap_gt _ _).mp h1
      simp [h1, h1']
    · have h1' : compare y.c1 x.c1 = Ordering.eq := (compare_eq_swap _ _).mp h1
      simp only [h1, h1']
      exact compare_lt_iff_swap_gt _ _
    · have h1' : compare y.c1 x.c1 = Ordering.lt := (compare_lt_iff_swap_gt _ _).mpr h1
      simp [h1, h1']
  · have h2' : compare y.c2 x.c2 = Ordering.lt := (compare_lt_iff_swap_gt _ _).mpr h2
    simp [h2, h2']

theorem Fp12.cmp_eq_iff (a b : Fp12 K) : Fp12.cmp a b = Ordering.eq ↔ a = b := by
  by_cases h : Fp6.cmp a.c1 b.c1 = Ordering.eq
  · simp only [Fp12.cmp, h, if_pos]
    constructor
    · intro h0
      have e0 : a.c0 = b.c0 := Fp6.cmp_eq_imp h0
      have e1 : a.c1 = b.c1 := Fp6.cmp_eq_imp h
      ext <;> simp [e0, e1]
    · intro he
      subst he
      exact Fp6.cmp_self a.c0
  · simp only [Fp12.cmp, h, if_neg, if_false]
    constructor
    · intro h0
      exact h0.elim
    · intro he
      subst he
      exact h (Fp6.cmp_self _)

theorem Fp12.cmp_lt_iff_swap_gt (a b : Fp12 K) :
    Fp12.cmp a b = Ordering.lt ↔ Fp12.cmp b a = Ordering.gt := by
  by_cases h : Fp6.cmp a.c1 b.c1 = Ordering.eq
  · have h' : Fp6.cmp b.c1 a.c1 = Ordering.eq := by
      rw [Fp6.cmp_eq_iff_six] at h ⊢
      exact h.symm
    simp only [Fp12.cmp, h, h', if_pos]
    exact Fp6.cmp_lt_iff_swap_gt_six _ _
  · have h' : ¬Fp6.cmp b.c1 a.c1 = Ordering.eq := by
      intro he
      apply h
      rw [Fp6.cmp_eq_iff_six] at he ⊢
      exact he.symm
    simp only [Fp12.cmp, h, h', if_neg, if_false]
    exact Fp6.cmp_lt_iff_swap_gt_six _ _

end OrderingClaims

/-- C8: `cmp` is a deterministic total order on Fp12 elements with `c1` as
primary key and `c0` as tie-break (each by the subfield's own total order):
for every `a, b` exactly one of `a < b`, `a = b`, `b < a` holds (each
disjunct asserts its case and rules out the other two), and `partial_cmp`
always returns `Some` of the same ordering. -/
theorem Fp12.cmp_total_order {K : Type} [LinearOrder K] (a b : Fp12 K) :
    Fp12.partialCmp a b = some (Fp12.cmp a b) ∧
      ((Fp12.cmp a b = Ordering.lt ∧ a ≠ b ∧ Fp12.cmp b a ≠ Ordering.lt) ∨
        (a = b ∧ Fp12.cmp a b ≠ Ordering.lt ∧ Fp12.cmp b a ≠ Ordering.lt) ∨
        (Fp12.cmp b a = Ordering.lt ∧ a ≠ b ∧ Fp12.cmp a b ≠ Ordering.lt)) := by
  refine ⟨rfl, ?_⟩
  cases h : Fp12.cmp a b
  · left
    refine ⟨rfl, ?_, ?_⟩
    · intro he
      rw [(Fp12.cmp_eq_iff a b).mpr he] at h
      exact absurd h (by decide)
    · have hg : Fp12.cmp b a = Ordering.gt := (Fp12.cmp_lt_iff_swap_gt a b).mp h
      rw [hg]
      decide
  · right; left
    have he : a = b := (Fp12.cmp_eq_iff a b).mp h
    refine ⟨he, ?_, ?_⟩
    · decide
    · rw [(Fp12.cmp_eq_iff b a).mpr he.symm]; decide
  · right; right
    have hl : Fp12.cmp b a = Ordering.lt := (Fp12.cmp_lt_iff_swap_gt b a).mpr h
    refine ⟨hl, ?_, ?_⟩
    · intro he
      rw [(Fp12.cmp_eq_iff a b).mpr he] at h
      exact absurd h (by decide)
    · decide

section BlackBox

/-- Fp12 with the Fp6 layer treated as the black box the spec declares it to
be: a pair over the abstract field `F` of Fp6 values, with `γ : F` the
quadratic nonresidue (`w ^ 2 = γ`).  Used for the claims whose statements
live entirely at Fp6 granularity (inversion, division). -/
@[ext]
structure Fp12B (F : Type) where
  c0 : F
  c1 : F
deriving DecidableEq

variable {F : Type} [Field F] [DecidableEq F]

/-- Source `Zero::zero` at this granularity. -/
def Fp12B.zero : Fp12B F := ⟨0, 0⟩

/-- Source `One::one` at this granularity. -/
def Fp12B.one : Fp12B F := ⟨1, 0⟩

/-- Source `Zero::is_zero`: `self.c0.is_zero() && self.c1.is_zero()`. -/
def Fp12B.is_zero (a : Fp12B F) : Bool :=
  decide (a.c0 = 0) && decide (a.c1 = 0)

/-- Modelled from the spec: the accelerated multiplication kernel at this
granularity — the standard quadratic-extension combination over the black-box
Fp6 field. -/
def Fp12B.mul (γ : F) (a b : Fp12B F) : Fp12B F :=
  ⟨a.c0 * b.c0 + γ * (a.c1 * b.c1),
   (a.c0 + a.c1) * (b.c0 + b.c1) - a.c0 * b.c0 - a.c1 * b.c1⟩

/-- Modelled from the spec: the accelerated kernel `blst_fp12_377_inverse`
(no code in the repository); per the spec it computes the norm formula
`norm = c0 ^ 2 - γ * c1 ^ 2` at the Fp6 level and returns
`(c0, -c1) / norm`, division being the black-box Fp6 field's. -/
def blst_fp12_377_inverse (γ : F) (a : Fp12B F) : Fp12B F :=
  let n := a.c0 * a.c0 - γ * (a.c1 * a.c1)
  ⟨a.c0 * n⁻¹, -a.c1 * n⁻¹⟩

/-- Source `Field::inverse`: `None` for the zero element, otherwise the
kernel's result. -/
def Fp12B.inverse (γ : F) (a : Fp12B F) : Option (Fp12B F) :=
  if a.is_zero then none else some (blst_fp12_377_inverse γ a)

/-- Source `Field::inverse_in_place`: on `Some` the value is replaced, on
`None` it is left unchanged; modelled with explicit state passing — the
result is the new value together with the success flag. -/
def Fp12B.inverse_in_place (γ : F) (a : Fp12B F) : Fp12B F × Bool :=
  match Fp12B.inverse γ a with
  | some inv => (inv, true)
  | none => (a, false)

/-- Source `Div::div`: `result.mul_assign(&other.inverse().unwrap())`.  The
`unwrap` of an absent inverse is a Rust panic; the embedding models reaching
that panic as `none`. -/
def Fp12B.div (γ : F) (a b : Fp12B F) : Option (Fp12B F) :=
  match Fp12B.inverse γ b with
  | none => none
  | some i => some (Fp12B.mul γ a i)

/-- Source `DivAssign::div_assign`:
`self.mul_assign(&other.inverse().unwrap())`; same modelling, with the
returned value the new `self`. -/
def Fp12B.div_assign (γ : F) (s other : Fp12B F) : Option (Fp12B F) :=
  match Fp12B.inverse γ other with
  | none => none
  | some i => some (Fp12B.mul γ s i)

theorem Fp12B.is_zero_iff (a : Fp12B F) :
    a.is_zero = true ↔ a = Fp12B.zero := by
  simp [Fp12B.is_zero, Fp12B.zero, Fp12B.ext_iff]

theorem Fp12B.norm_ne_zero (γ : F) (hγ : ∀ y : F, y * y ≠ γ)
    (x : Fp12B F) (hx : x ≠ Fp12B.zero) :
    x.c0 * x.c0 - γ * (x.c1 * x.c1) ≠ 0 := by
  intro h
  have h' : x.c0 * x.c0 = γ * (x.c1 * x.c1) := sub_eq_zero.mp h
  by_cases hc1 : x.c1 = 0
  · have hc0 : x.c0 = 0 := by
      have : x.c0 * x.c0 = 0 := by rw [h', hc1]; ring
      exact mul_self_eq_zero.mp this
    exact hx (by ext <;> simp [Fp12B.zero, hc0, hc1])
  · apply hγ (x.c0 * x.c1⁻¹)
    field_simp
    exact h'

theorem Fp12B.mul_blst_inverse (γ : F) (hγ : ∀ y : F, y * y ≠ γ)
    (x : Fp12B F) (hx : x ≠ Fp12B.zero) :
    Fp12B.mul γ x (blst_fp12_377_inverse γ x) = Fp12B.one := by
  have hn := Fp12B.norm_ne_zero γ hγ x hx
  ext
  · show x.c0 * (x.c0 * _⁻¹) + γ * (x.c1 * (-x.c1 * _⁻¹)) = 1
    field_simp
    ring
  · show (x.c0 + x.c1) * (x.c0 * _⁻¹ + -x.c1 * _⁻¹) - x.c0 * (x.c0 * _⁻¹) -
        x.c1 * (-x.c1 * _⁻¹) = 0
    ring

omit [DecidableEq F] in
theorem Fp12B.mulOneB (γ : F) (a : Fp12B F) : Fp12B.mul γ a Fp12B.one = a := by
  ext <;>
    · simp only [Fp12B.mul, Fp12B.one]
      ring

omit [DecidableEq F] in
theorem Fp12B.mulComm (γ : F) (a b : Fp12B F) :
    Fp12B.mul γ a b = Fp12B.mul γ b a := by
  ext <;>
    · simp only [Fp12B.mul]
      ring

omit [DecidableEq F] in
theorem Fp12B.mulAssocB (γ : F) (a b c : Fp12B F) :
    Fp12B.mul γ (Fp12B.mul γ a b) c = Fp12B.mul γ a (Fp12B.mul γ b c) := by
  ext <;>
    · simp only [Fp12B.mul]
      ring

end BlackBox

/-- 11 is prime, so `ZMod 11` is a field: the concrete instantiation used by
the witnesses below. -/
instance : Fact (Nat.Prime 11) := ⟨by norm_num⟩

/-- C2: `inverse()` returns `None` exactly on the zero element; for every
nonzero `x` it returns `Some v` with `x * v = one()` (the kernel modelled by
the spec's norm formula); `inverse_in_place` behaves identically, replacing
the value on success and leaving it unchanged (with failure flag) on zero.
The hypothesis that `γ` is a nonsquare in the black-box Fp6 field is the
tower's construction invariant (`w ^ 2 - γ` irreducible). -/
theorem Fp12B.inverse_spec {F : Type} [Field F] [DecidableEq F] (γ : F)
    (hγ : ∀ y : F, y * y ≠ γ) :
    (∀ x : Fp12B F, Fp12B.inverse γ x = none ↔ x = Fp12B.zero) ∧
      (∀ x : Fp12B F, x ≠ Fp12B.zero →
        ∃ v, Fp12B.inverse γ x = some v ∧ Fp12B.mul γ x v = Fp12B.one ∧
          Fp12B.inverse_in_place γ x = (v, true)) ∧
      Fp12B.inverse_in_place γ (Fp12B.zero : Fp12B F) =
        (Fp12B.zero, false) := by
  refine ⟨?_, ?_, ?_⟩
  · intro x
    have hiff : Fp12B.inverse γ x = none ↔ x.is_zero = true := by
      unfold Fp12B.inverse
      by_cases hz : x.is_zero <;> simp [hz]
    rw [hiff, Fp12B.is_zero_iff]
  · intro x hx
    have hz : ¬x.is_zero = true := fun h => hx ((Fp12B.is_zero_iff x).mp h)
    refine ⟨blst_fp12_377_inverse γ x, ?_,
      Fp12B.mul_blst_inverse γ hγ x hx, ?_⟩
    · simp [Fp12B.inverse, hz]
    · simp [Fp12B.inverse_in_place, Fp12B.inverse, hz]
  · simp [Fp12B.inverse_in_place, Fp12B.inverse, Fp12B.is_zero, Fp12B.zero]

/-- Witness for C2 at `F = ZMod 11`, `γ = 2` (a nonsquare mod 11), at the
concrete nonzero element `(1, 1)`. -/
theorem Fp12B.inverse_spec_witness :
    ∃ v, Fp12B.inverse (2 : ZMod 11) ⟨1, 1⟩ = some v ∧
      Fp12B.mul (2 : ZMod 11) ⟨1, 1⟩ v = Fp12B.one ∧
      Fp12B.inverse_in_place (2 : ZMod 11) ⟨1, 1⟩ = (v, true) :=
  (Fp12B.inverse_spec (2 : ZMod 11) (by decide)).2.1 ⟨1, 1⟩ (by decide)

/-- C5 counterexample: the claim says dividing by `zero()` does not
panic/abort and surfaces the absence; but `Div::div` and
`DivAssign::div_assign` call `other.inverse().unwrap()` unconditionally, so a
zero divisor reaches `unwrap` on `None` — a Rust panic, modelled here as the
`none` result. -/
theorem Fp12B.div_by_zero_panics :
    Fp12B.div (2 : ZMod 11) Fp12B.one Fp12B.zero = none ∧
      Fp12B.div_assign (2 : ZMod 11) Fp12B.one Fp12B.zero = none :=
  ⟨rfl, rfl⟩

/-- C5 (amended): `Div`/`DivAssign` unwrap the divisor's inverse
unconditionally: dividing by `zero()` panics (reaches `unwrap` on `None`,
modelled as `none`) rather than surfacing the absence; for every nonzero
divisor `b` they return the true quotient `q = a * b⁻¹` with `q * b = a`. -/
theorem Fp12B.div_spec {F : Type} [Field F] [DecidableEq F] (γ : F)
    (hγ : ∀ y : F, y * y ≠ γ) (a b : Fp12B F) :
    (b = Fp12B.zero →
      Fp12B.div γ a b = none ∧ Fp12B.div_assign γ a b = none) ∧
      (b ≠ Fp12B.zero →
        ∃ q, Fp12B.div γ a b = some q ∧ Fp12B.div_assign γ a b = some q ∧
          Fp12B.mul γ q b = a) := by
  constructor
  · intro hb
    subst hb
    have hz : Fp12B.inverse γ (Fp12B.zero : Fp12B F) = none := by
      simp [Fp12B.inverse, Fp12B.is_zero, Fp12B.zero]
    exact ⟨by simp [Fp12B.div, hz], by simp [Fp12B.div_assign, hz]⟩
  · intro hb
    have hz : ¬b.is_zero = true := fun h => hb ((Fp12B.is_zero_iff b).mp h)
    have hinv : Fp12B.inverse γ b = some (blst_fp12_377_inverse γ b) := by
      simp [Fp12B.inverse, hz]
    have hone : Fp12B.mul γ b (blst_fp12_377_inverse γ b) = Fp12B.one :=
      Fp12B.mul_blst_inverse γ hγ b hb
    refine ⟨Fp12B.mul γ a (blst_fp12_377_inverse γ b), ?_, ?_, ?_⟩
    · simp [Fp12B.div, hinv]
    · simp [Fp12B.div_assign, hinv]
    · calc Fp12B.mul γ (Fp12B.mul γ a (blst_fp12_377_inverse γ b)) b
          = Fp12B.mul γ a (Fp12B.mul γ (blst_fp12_377_inverse γ b) b) :=
            Fp12B.mulAssocB γ a _ b
        _ = Fp12B.mul γ a (Fp12B.mul γ b (blst_fp12_377_inverse γ b)) := by
            rw [Fp12B.mulComm γ b (blst_fp12_377_inverse γ b)]
        _ = Fp12B.mul γ a Fp12B.one := by rw [hone]
        _ = a := Fp12B.mulOneB γ a

/-- Witness for the amended C5 at `F = ZMod 11`, `γ = 2`, dividing `(3, 4)`
by the nonzero `(1, 1)`. -/
theorem Fp12B.div_spec_witness :
    ∃ q, Fp12B.div (2 : ZMod 11) ⟨3, 4⟩ ⟨1, 1⟩ = some q ∧
      Fp12B.div_assign (2 : ZMod 11) ⟨3, 4⟩ ⟨1, 1⟩ = some q ∧
      Fp12B.mul (2 : ZMod 11) q ⟨1, 1⟩ = ⟨3, 4⟩ :=
  (Fp12B.div_spec (2 : ZMod 11) (by decide) ⟨3, 4⟩ ⟨1, 1⟩).2 (by decide)

section Codec

variable {F B L : Type}

/-- Source `CanonicalSerializeWithFlags::serialize_with_flags`: write `c0`'s
uncompressed encoding with no flags, then `c1`'s encoding carrying the
caller-supplied flags.  The external Fp6 codecs are abstract: `e6` is the
Fp6 `serialize_uncompressed`, `ef` the Fp6 `serialize_with_flags`; the writer
is modelled as the produced symbol list. -/
def Fp12B.serialize_with_flags (e6 : F → List B) (ef : F → L → List B)
    (a : Fp12B F) (fl : L) : List B :=
  e6 a.c0 ++ ef a.c1 fl

/-- Source `CanonicalDeserializeWithFlags::deserialize_with_flags`: read `c0`
via the uncompressed Fp6 decoder, then `c1` together with the flags.  The
reader is modelled as a symbol list; each abstract decoder returns the parsed
value and the remaining input, `none` being a decode error. -/
def Fp12B.deserialize_with_flags (d6 : List B → Option (F × List B))
    (df : List B → Option ((F × L) × List B)) (bs : List B) :
    Option ((Fp12B F × L) × List B) :=
  match d6 bs with
  | none => none
  | some (c0, r1) =>
    match df r1 with
    | none => none
    | some ((c1, fl), r2) => some ((⟨c0, c1⟩, fl), r2)

/-- Source `Field::from_random_bytes_with_flags`: split the input at
`len / 2`, parse `c0` from the first half with the plain Fp6 parser `p6` and
`c1` plus the flags from the remainder with the flagged Fp6 parser `pf`;
`None` as soon as either subfield parse fails. -/
def Fp12B.from_random_bytes_with_flags (p6 : List B → Option F)
    (pf : List B → Option (F × L)) (bytes : List B) : Option (Fp12B F × L) :=
  match p6 (bytes.take (bytes.length / 2)) with
  | none => none
  | some c0 =>
    match pf (bytes.drop (bytes.length / 2)) with
    | none => none
    | some (c1, fl) => some (⟨c0, c1⟩, fl)

/-- Source `Field::from_random_bytes`: `from_random_bytes_with_flags` with
`EmptyFlags` (modelled as `Unit`), discarding the flag value. -/
def Fp12B.from_random_bytes (p6 : List B → Option F)
    (pu : List B → Option (F × Unit)) (bytes : List B) : Option (Fp12B F) :=
  Option.map Prod.fst (Fp12B.from_random_bytes_with_flags p6 pu bytes)

end Codec

/-- C7: `serialize_with_flags` writes `c0`'s uncompressed encoding with no
flags followed by `c1`'s encoding carrying the caller-supplied flags, and
`deserialize_with_flags` is its exact inverse: with the external Fp6 codecs
satisfying their own reader round trips, decoding the produced bytes (before
any remaining input) returns the original element together with the original
flags. -/
theorem Fp12B.serialize_round_trip {F B L : Type} (e6 : F → List B)
    (ef : F → L → List B) (d6 : List B → Option (F × List B))
    (df : List B → Option ((F × L) × List B))
    (h6 : ∀ (x : F) (rest : List B), d6 (e6 x ++ rest) = some (x, rest))
    (hf : ∀ (x : F) (fl : L) (rest : List B),
      df (ef x fl ++ rest) = some ((x, fl), rest))
    (a : Fp12B F) (fl : L) (rest : List B) :
    Fp12B.serialize_with_flags e6 ef a fl = e6 a.c0 ++ ef a.c1 fl ∧
      Fp12B.deserialize_with_flags d6 df
          (Fp12B.serialize_with_flags e6 ef a fl ++ rest) =
        some ((a, fl), rest) := by
  refine ⟨rfl, ?_⟩
  unfold Fp12B.serialize_with_flags Fp12B.deserialize_with_flags
  rw [List.append_assoc, h6]
  simp [hf]

/-- C9: `from_random_bytes_with_flags` splits its input at `len / 2`, parses
`c0` from the first half as a plain Fp6 and `c1` plus the flags from the
remainder via the flagged Fp6 parser, returns `None` exactly when either
subfield parse returns `None`, and `from_random_bytes` is the same with empty
flags, discarding the flag value. -/
theorem Fp12B.from_random_bytes_spec {F B L : Type} (p6 : List B → Option F)
    (pf : List B → Option (F × L)) (pu : List B → Option (F × Unit))
    (bytes : List B) :
    (Fp12B.from_random_bytes_with_flags p6 pf bytes = none ↔
        p6 (bytes.take (bytes.length / 2)) = none ∨
          pf (bytes.drop (bytes.length / 2)) = none) ∧
      (∀ (c0 c1 : F) (fl : L),
        p6 (bytes.take (bytes.length / 2)) = some c0 →
          pf (bytes.drop (bytes.length / 2)) = some (c1, fl) →
            Fp12B.from_random_bytes_with_flags p6 pf bytes =
              some (⟨c0, c1⟩, fl)) ∧
      Fp12B.from_random_bytes p6 pu bytes =
        Option.map Prod.fst (Fp12B.from_random_bytes_with_flags p6 pu bytes) := by
  refine ⟨?_, ?_, rfl⟩
  · unfold Fp12B.from_random_bytes_with_flags
    cases h0 : p6 (bytes.take (bytes.length / 2)) with
    | none => simp [h0]
    | some c0 =>
      cases h1 : pf (bytes.drop (bytes.length / 2)) with
      | none => simp [h1]
      | some p => simp [h1]
  · intro c0 c1 fl h0 h1
    unfold Fp12B.from_random_bytes_with_flags
    simp [h0, h1]

/-- Sample external Fp6 codec used by the C7 witness: one symbol per Fp6
value, one symbol per flagged Fp6 value. -/
def sampleEnc6 (x : ZMod 7) : List (Sum (ZMod 7) (ZMod 7 × Bool)) :=
  [Sum.inl x]

/-- Sample flagged encoder for the C7 witness. -/
def sampleEncF (x : ZMod 7) (fl : Bool) : List (Sum (ZMod 7) (ZMod 7 × Bool)) :=
  [Sum.inr (x, fl)]

/-- Sample decoder matching `sampleEnc6`. -/
def sampleDec6 : List (Sum (ZMod 7) (ZMod 7 × Bool)) →
    Option (ZMod 7 × List (Sum (ZMod 7) (ZMod 7 × Bool)))
  | Sum.inl x :: r => some (x, r)
  | _ => none

/-- Sample flagged decoder matching `sampleEncF`. -/
def sampleDecF : List (Sum (ZMod 7) (ZMod 7 × Bool)) →
    Option ((ZMod 7 × Bool) × List (Sum (ZMod 7) (ZMod 7 × Bool)))
  | Sum.inr (x, fl) :: r => some ((x, fl), r)
  | _ => none

/-- Witness for C7 at the sample codec, element `(2, 3)`, flag `true`, empty
remaining input. -/
theorem Fp12B.serialize_round_trip_witness :
    Fp12B.deserialize_with_flags sampleDec6 sampleDecF
        (Fp12B.serialize_with_flags sampleEnc6 sampleEncF ⟨2, 3⟩ true ++ []) =
      some (((⟨2, 3⟩ : Fp12B (ZMod 7)), true), []) :=
  (Fp12B.serialize_round_trip sampleEnc6 sampleEncF sampleDec6 sampleDecF
    (fun _ _ => rfl) (fun _ _ _ => rfl) ⟨2, 3⟩ true []).2

/-- Sample plain Fp6 parser for the C9 witness. -/
def sampleParse6 : List (Sum (ZMod 7) (ZMod 7 × Bool)) → Option (ZMod 7)
  | [Sum.inl x] => some x
  | _ => none

/-- Sample flagged Fp6 parser for the C9 witness. -/
def sampleParseF : List (Sum (ZMod 7) (ZMod 7 × Bool)) → Option (ZMod 7 × Bool)
  | [Sum.inr (x, fl)] => some (x, fl)
  | _ => none

/-- Sample empty-flags Fp6 parser for the C9 witness. -/
def sampleParseU : List (Sum (ZMod 7) (ZMod 7 × Bool)) → Option (ZMod 7 × Unit)
  | [Sum.inl x] => some (x, ())
  | _ => none

/-- Witness for C9 at the sample parsers on a two-symbol input: the split at
`len / 2 = 1` sends one symbol to each subfield parser and both succeed. -/
theorem Fp12B.from_random_bytes_spec_witness :
    Fp12B.from_random_bytes_with_flags sampleParse6 sampleParseF
        [Sum.inl 2, Sum.inr (3, true)] =
      some ((⟨2, 3⟩ : Fp12B (ZMod 7)), true) :=
  (Fp12B.from_random_bytes_spec sampleParse6 sampleParseF sampleParseU
    [Sum.inl 2, Sum.inr (3, true)]).2.1 2 3 true rfl rfl

/-- Witness for C1 at `K = ZMod 7`, `ξ = 3`, concrete elements. -/
theorem Fp12.mul_eq_genericMul_witness :
    Fp12.mul (3 : ZMod 7) ⟨⟨1, 2, 3⟩, ⟨4, 5, 6⟩⟩ ⟨⟨6, 0, 1⟩, ⟨2, 3, 4⟩⟩ =
        Fp12.genericMul 3 ⟨⟨1, 2, 3⟩, ⟨4, 5, 6⟩⟩ ⟨⟨6, 0, 1⟩, ⟨2, 3, 4⟩⟩ ∧
      Fp12.mul_assign (3 : ZMod 7) ⟨⟨1, 2, 3⟩, ⟨4, 5, 6⟩⟩ ⟨⟨6, 0, 1⟩, ⟨2, 3, 4⟩⟩ =
        Fp12.genericMul 3 ⟨⟨1, 2, 3⟩, ⟨4, 5, 6⟩⟩ ⟨⟨6, 0, 1⟩, ⟨2, 3, 4⟩⟩ :=
  Fp12.mul_eq_genericMul 3 ⟨⟨1, 2, 3⟩, ⟨4, 5, 6⟩⟩ ⟨⟨6, 0, 1⟩, ⟨2, 3, 4⟩⟩

/-- Witness for C3 at `K = ZMod 7`, `ξ = 3`, concrete element and sparse
coefficients. -/
theorem Fp12.sparse_mul_matches_dense_witness :
    Fp12.mul_by_034 (3 : ZMod 7) ⟨⟨1, 2, 3⟩, ⟨4, 5, 6⟩⟩ 2 5 1 =
        Fp12.mul 3 ⟨⟨1, 2, 3⟩, ⟨4, 5, 6⟩⟩ (Fp12.dense034 2 5 1) ∧
      Fp12.mul_by_014 (3 : ZMod 7) ⟨⟨1, 2, 3⟩, ⟨4, 5, 6⟩⟩ 2 5 1 =
        Fp12.mul 3 ⟨⟨1, 2, 3⟩, ⟨4, 5, 6⟩⟩ (Fp12.dense014 2 5 1) :=
  Fp12.sparse_mul_matches_dense 3 ⟨⟨1, 2, 3⟩, ⟨4, 5, 6⟩⟩ 2 5 1

/-- Witness for C4 at `K = ZMod 7`, `ξ = 3`, exponent limb slice `[5]`. -/
theorem Fp12.cyclotomic_exp_eq_repeatedMul_witness :
    Fp12.cyclotomic_exp (3 : ZMod 7) ⟨⟨1, 2, 3⟩, ⟨4, 5, 6⟩⟩ [5] =
        Fp12.repeatedMul 3 ⟨⟨1, 2, 3⟩, ⟨4, 5, 6⟩⟩ (limbsVal [5]) ∧
      Fp12.cyclotomic_exp (3 : ZMod 7) ⟨⟨1, 2, 3⟩, ⟨4, 5, 6⟩⟩ [5] =
        Fp12.cycExpLoop 3 ⟨⟨1, 2, 3⟩, ⟨4, 5, 6⟩⟩ (bitIteratorBE [5]) false
          Fp12.one :=
  Fp12.cyclotomic_exp_eq_repeatedMul 3 ⟨⟨1, 2, 3⟩, ⟨4, 5, 6⟩⟩ [5]

/-- Witness for C8 at `K = ℕ`, two concrete elements. -/
theorem Fp12.cmp_total_order_witness :
    Fp12.partialCmp (⟨⟨1, 2, 3⟩, ⟨4, 5, 6⟩⟩ : Fp12 Nat) ⟨⟨1, 2, 3⟩, ⟨4, 5, 7⟩⟩ =
        some (Fp12.cmp ⟨⟨1, 2, 3⟩, ⟨4, 5, 6⟩⟩ ⟨⟨1, 2, 3⟩, ⟨4, 5, 7⟩⟩) ∧
      ((Fp12.cmp (⟨⟨1, 2, 3⟩, ⟨4, 5, 6⟩⟩ : Fp12 Nat) ⟨⟨1, 2, 3⟩, ⟨4, 5, 7⟩⟩ =
            Ordering.lt ∧
          (⟨⟨1, 2, 3⟩, ⟨4, 5, 6⟩⟩ : Fp12 Nat) ≠ ⟨⟨1, 2, 3⟩, ⟨4, 5, 7⟩⟩ ∧
          Fp12.cmp (⟨⟨1, 2, 3⟩, ⟨4, 5, 7⟩⟩ : Fp12 Nat) ⟨⟨1, 2, 3⟩, ⟨4, 5, 6⟩⟩ ≠
            Ordering.lt) ∨
        ((⟨⟨1, 2, 3⟩, ⟨4, 5, 6⟩⟩ : Fp12 Nat) = ⟨⟨1, 2, 3⟩, ⟨4, 5, 7⟩⟩ ∧
          Fp12.cmp (⟨⟨1, 2, 3⟩, ⟨4, 5, 6⟩⟩ : Fp12 Nat) ⟨⟨1, 2, 3⟩, ⟨4, 5, 7⟩⟩ ≠
            Ordering.lt ∧
          Fp12.cmp (⟨⟨1, 2, 3⟩, ⟨4, 5, 7⟩⟩ : Fp12 Nat) ⟨⟨1, 2, 3⟩, ⟨4, 5, 6⟩⟩ ≠
            Ordering.lt) ∨
        (Fp12.cmp (⟨⟨1, 2, 3⟩, ⟨4, 5, 7⟩⟩ : Fp12 Nat) ⟨⟨1, 2, 3⟩, ⟨4, 5, 6⟩⟩ =
            Ordering.lt ∧
          (⟨⟨1, 2, 3⟩, ⟨4, 5, 6⟩⟩ : Fp12 Nat) ≠ ⟨⟨1, 2, 3⟩, ⟨4, 5, 7⟩⟩ ∧
          Fp12.cmp (⟨⟨1, 2, 3⟩, ⟨4, 5, 6⟩⟩ : Fp12 Nat) ⟨⟨1, 2, 3⟩, ⟨4, 5, 7⟩⟩ ≠
            Ordering.lt)) :=
  Fp12.cmp_total_order ⟨⟨1, 2, 3⟩, ⟨4, 5, 6⟩⟩ ⟨⟨1, 2, 3⟩, ⟨4, 5, 7⟩⟩
